import Mathlib

set_option maxHeartbeats 1000000

namespace Serialization

/-- Serialized values of the binary codec, represented by shape category.
A primitive value is identified with its raw in-memory bytes (the binary
codec in `src/include/serialization.hpp` only ever sees a primitive
through `reinterpret_cast` of its memory, lines 90-113). Each byte is a
`Nat` below 256. -/
inductive Val where
  | prim (bytes : List Nat)
  | record (fields : List Val)
  | seq (elems : List Val)
  | prod (elems : List Val)
  | opt (inner : Option Val)
  | ptr (inner : Option Val)

/-- Static shapes (the six categories of `serialization.hpp`):
regular/primitive (with its `sizeof`), aggregate, iterable, tuple-like,
`std::optional`, `std::unique_ptr`. -/
inductive Shape where
  | prim (width : Nat)
  | record (fields : List Shape)
  | seq (elem : Shape)
  | prod (elems : List Shape)
  | opt (inner : Shape)
  | ptr (inner : Shape)

/-- Little-endian byte decomposition of a natural number, `k` bytes wide;
models the in-memory representation of fixed-width unsigned integers on
the (little-endian) target platform. -/
def natToBytes : Nat → Nat → List Nat
  | 0, _ => []
  | k + 1, n => n % 256 :: natToBytes k (n / 256)

/-- Little-endian recomposition, inverse of `natToBytes`. -/
def bytesToNat : List Nat → Nat
  | [] => 0
  | b :: bs => b + 256 * bytesToNat bs

mutual
/-- `serializer<T>::write` of `serialization.hpp`, as the byte list produced. -/
def enc : Val → List Nat
  | .prim bs => bs
  | .record fs => encAll fs
  | .seq es => natToBytes 8 es.length ++ encAll es
  | .prod es => encAll es
  | .opt none => [0]
  | .opt (some v) => 1 :: enc v
  | .ptr none => [0]
  | .ptr (some v) => 1 :: enc v

def encAll : List Val → List Nat
  | [] => []
  | v :: vs => enc v ++ encAll vs
end

inductive BinErr where
  | truncatedInput

def breadIter (f : List Nat → Except BinErr (Val × List Nat)) :
    Nat → List Nat → Except BinErr (List Val × List Nat)
  | 0, b => .ok ([], b)
  | n + 1, b => do
      let (v, b1) ← f b
      let (vs, b2) ← breadIter f n b1
      .ok (v :: vs, b2)

mutual
def bread : Shape → List Nat → Except BinErr (Val × List Nat)
  | .prim w, b =>
      if b.length < w then .error .truncatedInput
      else .ok (.prim (b.take w), b.drop w)
  | .record ss, b => (breadFields ss b).map fun p => (.record p.1, p.2)
  | .seq s, b =>
      if b.length < 8 then .error .truncatedInput
      else (breadIter (bread s) (bytesToNat (b.take 8)) (b.drop 8)).map
        fun p => (.seq p.1, p.2)
  | .prod ss, b => (breadFields ss b).map fun p => (.prod p.1, p.2)
  | .opt s, b =>
      match b with
      | [] => .error .truncatedInput
      | flag :: rest =>
          if flag ≠ 0 then (bread s rest).map fun p => (.opt (some p.1), p.2)
          else .ok (.opt none, rest)
  | .ptr s, b =>
      match b with
      | [] => .error .truncatedInput
      | flag :: rest =>
          if flag ≠ 0 then (bread s rest).map fun p => (.ptr (some p.1), p.2)
          else .ok (.ptr none, rest)

def breadFields : List Shape → List Nat → Except BinErr (List Val × List Nat)
  | [], b => .ok ([], b)
  | s :: ss, b => do
      let (v, b1) ← bread s b
      let (vs, b2) ← breadFields ss b1
      .ok (v :: vs, b2)
end

mutual
/-- `serializer<T>::length` of `serialization.hpp`: `sizeof(T)` for a
regular value, sum over fields for an aggregate, `sizeof(size_t)` plus the
element lengths for an iterable, sum over elements for a tuple, and
`1` / `1 + length(inner)` for an absent / present optional or unique_ptr. -/
def blength : Val → Nat
  | .prim bs => bs.length
  | .record fs => blengthAll fs
  | .seq es => 8 + blengthAll es
  | .prod es => blengthAll es
  | .opt none => 1
  | .opt (some v) => 1 + blength v
  | .ptr none => 1
  | .ptr (some v) => 1 + blength v

def blengthAll : List Val → Nat
  | [] => 0
  | v :: vs => blength v + blengthAll vs
end

mutual
/-- A value conforms to a shape: primitive bytes have exactly the shape's
width (the `sizeof`) and are genuine bytes; composite values conform
pointwise.  The element count of a sequence fits in a 64-bit `size_t`. -/
inductive HasShape : Shape → Val → Prop
  | prim {w : Nat} {bs : List Nat} : bs.length = w → (∀ b ∈ bs, b < 256) →
      HasShape (.prim w) (.prim bs)
  | record {ss vs} : HasShapeFields ss vs → HasShape (.record ss) (.record vs)
  | seq {s es} : HasShapeElems s es → es.length < 2 ^ 64 →
      HasShape (.seq s) (.seq es)
  | prod {ss vs} : HasShapeFields ss vs → HasShape (.prod ss) (.prod vs)
  | optNone {s} : HasShape (.opt s) (.opt none)
  | optSome {s v} : HasShape s v → HasShape (.opt s) (.opt (some v))
  | ptrNone {s} : HasShape (.ptr s) (.ptr none)
  | ptrSome {s v} : HasShape s v → HasShape (.ptr s) (.ptr (some v))

inductive HasShapeFields : List Shape → List Val → Prop
  | nil : HasShapeFields [] []
  | cons {s ss v vs} : HasShape s v → HasShapeFields ss vs →
      HasShapeFields (s :: ss) (v :: vs)

inductive HasShapeElems : Shape → List Val → Prop
  | nil {s} : HasShapeElems s []
  | cons {s v vs} : HasShape s v → HasShapeElems s vs →
      HasShapeElems s (v :: vs)
end

theorem natToBytes_length (k n : Nat) : (natToBytes k n).length = k := by
  induction k generalizing n with
  | zero => rfl
  | succ k ih => simp [natToBytes, ih]

theorem bytesToNat_natToBytes {k n : Nat} (h : n < 256 ^ k) :
    bytesToNat (natToBytes k n) = n := by
  induction k generalizing n with
  | zero => simp at h; simp [natToBytes, bytesToNat, h]
  | succ k ih =>
    have hdiv : n / 256 < 256 ^ k := by
      rw [Nat.div_lt_iff_lt_mul (by norm_num)]
      calc n < 256 ^ (k + 1) := h
        _ = 256 ^ k * 256 := by ring
    simp [natToBytes, bytesToNat, ih hdiv, Nat.mod_add_div]

mutual
theorem enc_length (v : Val) : (enc v).length = blength v := by
  match v with
  | .prim bs => rfl
  | .record fs => simp [enc, blength, encAll_length fs]
  | .seq es => simp [enc, blength, encAll_length es, natToBytes_length]
  | .prod es => simp [enc, blength, encAll_length es]
  | .opt none => rfl
  | .opt (some v) => simp [enc, blength, enc_length v, Nat.add_comm]
  | .ptr none => rfl
  | .ptr (some v) => simp [enc, blength, enc_length v, Nat.add_comm]

theorem encAll_length (vs : List Val) : (encAll vs).length = blengthAll vs := by
  match vs with
  | [] => rfl
  | v :: vs => simp [encAll, blengthAll, enc_length v, encAll_length vs]
end

theorem ebind_ok {α β ε : Type} (v : α) (f : α → Except ε β) :
    (Except.ok v : Except ε α) >>= f = f v := rfl

theorem emap_ok {α β ε : Type} (f : α → β) (v : α) :
    Except.map f (.ok v : Except ε α) = .ok (f v) := rfl

theorem ebind_err {α β ε : Type} (e : ε) (f : α → Except ε β) :
    (Except.error e : Except ε α) >>= f = .error e := rfl

mutual
theorem bread_enc {s : Shape} {v : Val} (h : HasShape s v) (rest : List Nat) :
    bread s (enc v ++ rest) = .ok (v, rest) := by
  match h with
  | @HasShape.prim w bs hlen hbyte =>
    subst hlen
    show bread (.prim bs.length) (bs ++ rest) = _
    simp only [bread]
    rw [if_neg (by simp only [List.length_append]; omega)]
    simp [List.take_left, List.drop_left]
  | .record hf =>
    show bread (.record _) (encAll _ ++ rest) = _
    simp [bread, breadFields_enc hf rest, emap_ok]
  | @HasShape.seq s' es he hcount =>
    show bread (.seq s') ((natToBytes 8 es.length ++ encAll es) ++ rest) = _
    rw [List.append_assoc]
    simp only [bread]
    rw [if_neg (by simp only [List.length_append, natToBytes_length]; omega)]
    have h8 : (natToBytes 8 es.length).length = 8 := natToBytes_length 8 es.length
    rw [List.take_left' h8, List.drop_left' h8]
    rw [bytesToNat_natToBytes (by simpa using hcount)]
    simp [breadElems_enc he rest, emap_ok]
  | .prod hf =>
    show bread (.prod _) (encAll _ ++ rest) = _
    simp [bread, breadFields_enc hf rest, emap_ok]
  | .optNone =>
    show bread (.opt _) ([0] ++ rest) = _
    simp [bread]
  | .optSome hv =>
    show bread (.opt _) ((1 :: enc _) ++ rest) = _
    simp [bread, bread_enc hv rest, emap_ok]
  | .ptrNone =>
    show bread (.ptr _) ([0] ++ rest) = _
    simp [bread]
  | .ptrSome hv =>
    show bread (.ptr _) ((1 :: enc _) ++ rest) = _
    simp [bread, bread_enc hv rest, emap_ok]

theorem breadFields_enc {ss : List Shape} {vs : List Val}
    (h : HasShapeFields ss vs) (rest : List Nat) :
    breadFields ss (encAll vs ++ rest) = .ok (vs, rest) := by
  match h with
  | .nil => rfl
  | .cons hv hf =>
    show breadFields _ ((enc _ ++ encAll _) ++ rest) = _
    rw [List.append_assoc]
    simp [breadFields, bread_enc hv, breadFields_enc hf rest, ebind_ok]

theorem breadElems_enc {s : Shape} {es : List Val}
    (h : HasShapeElems s es) (rest : List Nat) :
    breadIter (bread s) es.length (encAll es ++ rest) = .ok (es, rest) := by
  match h with
  | .nil => rfl
  | .cons hv he =>
    show breadIter _ (_ + 1) ((enc _ ++ encAll _) ++ rest) = _
    rw [List.append_assoc]
    simp [breadIter, bread_enc hv, breadElems_enc he rest, ebind_ok]
end

theorem breadIter_frame {f : List Nat → Except BinErr (Val × List Nat)}
    (hf : ∀ b v r, f b = .ok (v, r) →
      ∃ c, b = c ++ r ∧ ∀ t, f (c ++ t) = .ok (v, t)) :
    ∀ n b vs r, breadIter f n b = .ok (vs, r) →
      ∃ c, b = c ++ r ∧ ∀ t, breadIter f n (c ++ t) = .ok (vs, t) := by
  intro n
  induction n with
  | zero =>
    intro b vs r h
    replace h : Except.ok ([], b) = Except.ok (vs, r) := h
    simp only [Except.ok.injEq, Prod.mk.injEq] at h
    obtain ⟨hvs, hb⟩ := h
    exact ⟨[], by simp [hb], fun t => by simp [breadIter, hvs]⟩
  | succ n ih =>
    intro b vs r h
    cases hfb : f b with
    | error e => rw [breadIter, hfb, ebind_err] at h; exact absurd h (by simp)
    | ok p =>
      obtain ⟨v, b1⟩ := p
      rw [breadIter, hfb, ebind_ok] at h
      replace h : (breadIter f n b1 >>= fun q => Except.ok (v :: q.1, q.2))
          = Except.ok (vs, r) := h
      cases hit : breadIter f n b1 with
      | error e => rw [hit, ebind_err] at h; exact absurd h (by simp)
      | ok q =>
        obtain ⟨vs1, b2⟩ := q
        rw [hit, ebind_ok] at h
        replace h : Except.ok (v :: vs1, b2) = Except.ok (vs, r) := h
        simp only [Except.ok.injEq, Prod.mk.injEq] at h
        obtain ⟨hvs, hb2⟩ := h
        obtain ⟨c1, hb, hfc⟩ := hf b v b1 hfb
        obtain ⟨c2, hb1, hitc⟩ := ih b1 vs1 b2 hit
        refine ⟨c1 ++ c2, ?_, ?_⟩
        · rw [hb, hb1, List.append_assoc, hb2]
        · intro t
          rw [List.append_assoc]
          have step : breadIter f (n + 1) (c1 ++ (c2 ++ t))
              = (breadIter f n (c2 ++ t) >>= fun q =>
                  Except.ok (v :: q.1, q.2)) := by
            rw [breadIter, hfc (c2 ++ t), ebind_ok]
          rw [step, hitc t, ebind_ok, hvs]

mutual
theorem bread_frame {s : Shape} {b : List Nat} {v : Val} {r : List Nat}
    (h : bread s b = .ok (v, r)) :
    ∃ c, b = c ++ r ∧ ∀ t, bread s (c ++ t) = .ok (v, t) := by
  match s with
  | .prim w =>
    by_cases hlt : b.length < w
    · simp [bread, hlt] at h
    · simp only [bread, if_neg hlt, Except.ok.injEq, Prod.mk.injEq] at h
      obtain ⟨hv, hr⟩ := h
      have hwl : (b.take w).length = w := by
        simp only [List.length_take]; omega
      refine ⟨b.take w, by rw [← hr, List.take_append_drop], fun t => ?_⟩
      simp only [bread]
      rw [if_neg (by simp only [List.length_append, hwl]; omega)]
      rw [List.take_left' hwl, List.drop_left' hwl, hv]
  | .record ss =>
    cases hbf : breadFields ss b with
    | error e =>
      replace h : (breadFields ss b).map (fun p => (Val.record p.1, p.2))
          = .ok (v, r) := h
      rw [hbf] at h; simp [Except.map] at h
    | ok p =>
      obtain ⟨vs, r'⟩ := p
      replace h : (breadFields ss b).map (fun p => (Val.record p.1, p.2))
          = .ok (v, r) := h
      rw [hbf, emap_ok] at h
      simp only [Except.ok.injEq, Prod.mk.injEq] at h
      obtain ⟨hv, hr⟩ := h
      obtain ⟨c, hb, hc⟩ := breadFields_frame hbf
      refine ⟨c, by rw [hb, hr], fun t => ?_⟩
      show (breadFields ss (c ++ t)).map _ = _
      rw [hc t, emap_ok, hv]
  | .seq s' =>
    by_cases h8 : b.length < 8
    · simp [bread, h8] at h
    · replace h : (breadIter (bread s') (bytesToNat (b.take 8)) (b.drop 8)).map
          (fun p => (Val.seq p.1, p.2)) = .ok (v, r) := by
        rw [← h]; simp [bread, h8]
      cases hit : breadIter (bread s') (bytesToNat (b.take 8)) (b.drop 8) with
      | error e => rw [hit] at h; simp [Except.map] at h
      | ok p =>
        obtain ⟨vs, r'⟩ := p
        rw [hit, emap_ok] at h
        simp only [Except.ok.injEq, Prod.mk.injEq] at h
        obtain ⟨hv, hr⟩ := h
        obtain ⟨c2, hb1, hitc⟩ :=
          breadIter_frame (fun b v r hb => bread_frame hb) _ _ _ _ hit
        have h8l : (b.take 8).length = 8 := by
          simp only [List.length_take]; omega
        refine ⟨b.take 8 ++ c2, ?_, fun t => ?_⟩
        · rw [List.append_assoc, ← hr, ← hb1, List.take_append_drop]
        · rw [List.append_assoc]
          simp only [bread]
          rw [if_neg (by simp only [List.length_append, h8l]; omega)]
          rw [List.take_left' h8l, List.drop_left' h8l, hitc t, emap_ok, hv]
  | .prod ss =>
    cases hbf : breadFields ss b with
    | error e =>
      replace h : (breadFields ss b).map (fun p => (Val.prod p.1, p.2))
          = .ok (v, r) := h
      rw [hbf] at h; simp [Except.map] at h
    | ok p =>
      obtain ⟨vs, r'⟩ := p
      replace h : (breadFields ss b).map (fun p => (Val.prod p.1, p.2))
          = .ok (v, r) := h
      rw [hbf, emap_ok] at h
      simp only [Except.ok.injEq, Prod.mk.injEq] at h
      obtain ⟨hv, hr⟩ := h
      obtain ⟨c, hb, hc⟩ := breadFields_frame hbf
      refine ⟨c, by rw [hb, hr], fun t => ?_⟩
      show (breadFields ss (c ++ t)).map _ = _
      rw [hc t, emap_ok, hv]
  | .opt s' =>
    match b with
    | [] => simp [bread] at h
    | flag :: rest' =>
      by_cases hflag : flag = 0
      · subst hflag
        replace h : Except.ok (Val.opt none, rest') = Except.ok (v, r) := h
        simp only [Except.ok.injEq, Prod.mk.injEq] at h
        obtain ⟨hv, hr⟩ := h
        exact ⟨[0], by simp [hr], fun t => by simp [bread, ← hv]⟩
      · replace h : (bread s' rest').map (fun p => (Val.opt (some p.1), p.2))
            = .ok (v, r) := by
          rw [← h]; simp [bread, hflag]
        cases hin : bread s' rest' with
        | error e => rw [hin] at h; simp [Except.map] at h
        | ok p =>
          obtain ⟨v', r''⟩ := p
          rw [hin, emap_ok] at h
          simp only [Except.ok.injEq, Prod.mk.injEq] at h
          obtain ⟨hv, hr⟩ := h
          obtain ⟨c', hb, hc⟩ := bread_frame hin
          refine ⟨flag :: c', by simp [hb, hr], fun t => ?_⟩
          show bread (.opt s') (flag :: (c' ++ t)) = _
          simp [bread, hflag, hc t, emap_ok, hv]
  | .ptr s' =>
    match b with
    | [] => simp [bread] at h
    | flag :: rest' =>
      by_cases hflag : flag = 0
      · subst hflag
        replace h : Except.ok (Val.ptr none, rest') = Except.ok (v, r) := h
        simp only [Except.ok.injEq, Prod.mk.injEq] at h
        obtain ⟨hv, hr⟩ := h
        exact ⟨[0], by simp [hr], fun t => by simp [bread, ← hv]⟩
      · replace h : (bread s' rest').map (fun p => (Val.ptr (some p.1), p.2))
            = .ok (v, r) := by
          rw [← h]; simp [bread, hflag]
        cases hin : bread s' rest' with
        | error e => rw [hin] at h; simp [Except.map] at h
        | ok p =>
          obtain ⟨v', r''⟩ := p
          rw [hin, emap_ok] at h
          simp only [Except.ok.injEq, Prod.mk.injEq] at h
          obtain ⟨hv, hr⟩ := h
          obtain ⟨c', hb, hc⟩ := bread_frame hin
          refine ⟨flag :: c', by simp [hb, hr], fun t => ?_⟩
          show bread (.ptr s') (flag :: (c' ++ t)) = _
          simp [bread, hflag, hc t, emap_ok, hv]

theorem breadFields_frame {ss : List Shape} {b : List Nat} {vs : List Val}
    {r : List Nat} (h : breadFields ss b = .ok (vs, r)) :
    ∃ c, b = c ++ r ∧ ∀ t, breadFields ss (c ++ t) = .ok (vs, t) := by
  match ss with
  | [] =>
    replace h : Except.ok ([], b) = Except.ok (vs, r) := h
    simp only [Except.ok.injEq, Prod.mk.injEq] at h
    obtain ⟨hvs, hb⟩ := h
    exact ⟨[], by simp [hb], fun t => by simp [breadFields, hvs]⟩
  | s :: ss' =>
    cases hfb : bread s b with
    | error e =>
      rw [breadFields, hfb, ebind_err] at h; exact absurd h (by simp)
    | ok p =>
      obtain ⟨v, b1⟩ := p
      rw [breadFields, hfb, ebind_ok] at h
      replace h : (breadFields ss' b1 >>= fun q => Except.ok (v :: q.1, q.2))
          = Except.ok (vs, r) := h
      cases hff : breadFields ss' b1 with
      | error e => rw [hff, ebind_err] at h; exact absurd h (by simp)
      | ok q =>
        obtain ⟨vs1, b2⟩ := q
        rw [hff, ebind_ok] at h
        replace h : Except.ok (v :: vs1, b2) = Except.ok (vs, r) := h
        simp only [Except.ok.injEq, Prod.mk.injEq] at h
        obtain ⟨hvs, hb2⟩ := h
        obtain ⟨c1, hb, hfc⟩ := bread_frame hfb
        obtain ⟨c2, hb1, hffc⟩ := breadFields_frame hff
        refine ⟨c1 ++ c2, ?_, ?_⟩
        · rw [hb, hb1, List.append_assoc, hb2]
        · intro t
          rw [List.append_assoc]
          have step : breadFields (s :: ss') (c1 ++ (c2 ++ t))
              = (breadFields ss' (c2 ++ t) >>= fun q =>
                  Except.ok (v :: q.1, q.2)) := by
            rw [breadFields, hfc (c2 ++ t), ebind_ok]
          rw [step, hffc t, ebind_ok, hvs]
end

/-- Reading any strict prefix of an encoding fails: the binary reader is
deterministic and depends only on the bytes it consumes, so succeeding on
a strict prefix would contradict the full decode consuming everything. -/
theorem bread_of_proper_pref {s : Shape} {v : Val} {b d : List Nat}
    (hs : HasShape s v) (henc : enc v = b ++ d) (hd : d ≠ []) :
    bread s b = .error .truncatedInput := by
  cases hres : bread s b with
  | error e => cases e; rfl
  | ok p =>
    obtain ⟨v', r⟩ := p
    obtain ⟨c, hb, hc⟩ := bread_frame hres
    have h1 : bread s (enc v) = .ok (v, []) := by
      simpa using bread_enc hs []
    rw [henc, hb, List.append_assoc, hc (r ++ d)] at h1
    simp only [Except.ok.injEq, Prod.mk.injEq] at h1
    exact absurd (List.append_eq_nil.mp h1.2).2 hd

-- MARK: XML codec model

inductive XErr where
  | missingAttribute
  | missingChildElement

/-- An XML element: tag name, attributes (name/value pairs in document
order) and child elements in document order. -/
inductive XElem where
  | mk (tag : String) (attrs : List (String × String)) (children : List XElem)

def XElem.tag : XElem → String
  | .mk t _ _ => t

def XElem.attrs : XElem → List (String × String)
  | .mk _ a _ => a

def XElem.children : XElem → List XElem
  | .mk _ _ c => c

/-- Modelled from the spec: the XML document adapter (external
collaborator, §6) exposes attribute lookup (`FindAttribute`), returning
the first attribute with the given name or nothing. -/
def findAttr (attrs : List (String × String)) (k : String) : Option String :=
  match attrs with
  | [] => none
  | (k', v) :: rest => if k' = k then some v else findAttr rest k

/-- Modelled from the spec: the Base64 transcoding primitive is an
external collaborator exposing `encode(bytes) -> text` (§6); this is the
standard Base64 alphabet. -/
def b64Char (n : Nat) : Char :=
  "ABCDEFGHIJKLMNOPQRSTUVWXYZabcdefghijklmnopqrstuvwxyz0123456789+/".toList.getD n '?'

/-- Modelled from the spec: standard Base64 of a byte sequence, with
`=` padding. -/
def base64Encode : List Nat → List Char
  | [] => []
  | [a] => [b64Char (a / 4), b64Char (a % 4 * 16), '=', '=']
  | [a, b] => [b64Char (a / 4), b64Char (a % 4 * 16 + b / 16),
      b64Char (b % 16 * 4), '=']
  | a :: b :: c :: rest =>
      [b64Char (a / 4), b64Char (a % 4 * 16 + b / 16),
       b64Char (b % 16 * 4 + c / 64), b64Char (c % 64)] ++ base64Encode rest

/-- The bytes the Base64 XML writer actually hands to `base64_encode`:
`std::string_view{reinterpret_cast<const char *>(&value)}` (line 305 of
`serialization.hpp`) invokes the single-pointer `string_view` constructor,
whose length is `strlen`, so the view stops at the first zero byte of the
value's representation (when the representation contains no zero byte the
C++ even scans past the object; the model covers representations
containing a zero byte, as in every counterexample used here). -/
def strlenBytes (bs : List Nat) : List Nat := bs.takeWhile (fun b => b ≠ 0)

/-- `xml_serializer<regular T, true>::write` (lines 303-309): a leaf
element tagged by scalar kind whose `base64` attribute holds the Base64
text of the strlen-truncated view of the value's bytes. -/
def xmlWriteB64 (tag : String) (bs : List Nat) : XElem :=
  .mk tag [("base64", String.mk (base64Encode (strlenBytes bs)))] []

/-- The raw little-endian bytes of a 32-bit `int` value. -/
def i32bytes (n : Nat) : List Nat := natToBytes 4 n

/-- Modelled from the spec: decimal text to unsigned 64-bit conversion of
the XML adapter (`QueryUnsigned64Value`); fails on non-numeric text. -/
def parseU64 (s : String) : Option Nat :=
  if s.toList ≠ [] ∧ s.toList.all Char.isDigit then
    some (s.toList.foldl (fun acc c => (acc * 10 + (c.toNat - 48)) % 2 ^ 64) 0)
  else none

/-- Modelled from the spec: decimal text to signed 64-bit conversion of
the XML adapter (`QueryInt64Value`); fails on non-numeric text. -/
def parseI64 (s : String) : Option Int :=
  match s.toList with
  | '-' :: rest =>
      if rest ≠ [] ∧ rest.all Char.isDigit then
        some (-(Int.ofNat
          (rest.foldl (fun acc c => (acc * 10 + (c.toNat - 48)) % 2 ^ 63) 0)))
      else none
  | _ => (parseU64 s).map fun n => (n : Int)

/-- `xml_serializer<T, false>::read` for an unsigned integral `T`
(lines 279-297): fail with `parse_error` ("Cannot find attribute") when
the `value` attribute is absent; otherwise convert its text, ignoring the
conversion's status code (line 285) — on conversion failure the C++ local
`v` is left indeterminate, which the model renders as an arbitrary fixed
value. -/
def xmlReadU64Text (el : XElem) : Except XErr Nat :=
  match findAttr el.attrs "value" with
  | none => .error .missingAttribute
  | some s => .ok ((parseU64 s).getD 0)

/-- `xml_serializer<T, false>::read` for a signed integral `T`
(lines 287-290), same structure as the unsigned branch. -/
def xmlReadI64Text (el : XElem) : Except XErr Int :=
  match findAttr el.attrs "value" with
  | none => .error .missingAttribute
  | some s => .ok ((parseI64 s).getD 0)

/-- Modelled from the spec: boolean attribute text conversion of the XML
adapter (`BoolValue`): the text `true` (or a nonzero integer) is true. -/
def xmlBoolValue (s : String) : Bool :=
  s == "true" || ((parseI64 s).getD 0 != 0)

/-- `xml_serializer<std::optional<T>>::read` (lines 418-428),
parameterized by the inner serializer exactly as the C++ template is: read
the `has_value` attribute (error if absent); if it is true, read the first
child element, failing with `parse_error` ("Cannot find optional value
element") when there is none; otherwise produce the absent value. -/
def xmlReadOpt {α : Type} (inner : XElem → Except XErr α) (el : XElem) :
    Except XErr (Option α) :=
  match findAttr el.attrs "has_value" with
  | none => .error .missingAttribute
  | some s =>
      if xmlBoolValue s then
        match el.children with
        | [] => .error .missingChildElement
        | c :: _ => (inner c).map some
      else .ok none

/-- The child walk of `xml_serializer<aggregate T>::read` (lines 334-344),
parameterized by the per-field readers: consume exactly one child element
per field in order (`FirstChildElement` / `NextSiblingElement`), failing
when a field needs a child and none is left; children beyond the last
field are never visited. -/
def xmlReadFieldsWith {α : Type} (rs : List (XElem → Except XErr α)) :
    List XElem → Except XErr (List α)
  | cs =>
    match rs, cs with
    | [], _ => .ok []
    | _ :: _, [] => .error .missingChildElement
    | r :: rs', c :: cs' => do
        let v ← r c
        let vs ← xmlReadFieldsWith rs' cs'
        .ok (v :: vs)

theorem xmlReadFieldsWith_append {α : Type}
    {rs : List (XElem → Except XErr α)} {cs : List XElem} {vs : List α}
    (h : xmlReadFieldsWith rs cs = .ok vs) (extra : List XElem) :
    xmlReadFieldsWith rs (cs ++ extra) = .ok vs := by
  induction rs generalizing cs vs with
  | nil =>
    replace h : Except.ok [] = Except.ok vs := h
    simp only [Except.ok.injEq] at h
    simp [xmlReadFieldsWith, h]
  | cons r rs' ih =>
    match cs with
    | [] => exact absurd h (by simp [xmlReadFieldsWith])
    | c :: cs' =>
      cases hrc : r c with
      | error e =>
        rw [xmlReadFieldsWith, hrc, ebind_err] at h
        exact absurd h (by simp)
      | ok v =>
        rw [xmlReadFieldsWith, hrc, ebind_ok] at h
        replace h : (xmlReadFieldsWith rs' cs' >>= fun q =>
            Except.ok (v :: q)) = Except.ok vs := h
        cases hrest : xmlReadFieldsWith rs' cs' with
        | error e => rw [hrest, ebind_err] at h; exact absurd h (by simp)
        | ok vs1 =>
          rw [hrest, ebind_ok] at h
          have step : xmlReadFieldsWith (r :: rs') ((c :: cs') ++ extra)
              = (xmlReadFieldsWith rs' (cs' ++ extra) >>= fun q =>
                  Except.ok (v :: q)) := by
            rw [List.cons_append, xmlReadFieldsWith, hrc, ebind_ok]
          rw [step, ih hrest, ebind_ok, h]

-- MARK: Claims

/-- C1: the round-trip identity `decode(encode(v)) == v` fails for the
XML codec with `useBase64 = true`: the writer builds the view of the
value's bytes with the single-pointer `string_view` constructor (strlen),
so the distinct `int` values 5 and 65541 (raw bytes `05 00 00 00` and
`05 00 01 00`) produce identical documents, and no reader can invert the
encoding. -/
theorem c1_base64_roundtrip_broken :
    i32bytes 5 ≠ i32bytes 65541 ∧
    xmlWriteB64 "int" (i32bytes 5) = xmlWriteB64 "int" (i32bytes 65541) :=
  ⟨by decide, rfl⟩

/-- C2: for every conformant value, the binary `length` equals the number
of bytes `write` produces, `read` on the encoding followed by any rest
returns exactly the value and that rest (consuming exactly `length v`
bytes, never re-reading), and the cursor's remaining length is the
original length minus the encoded length. -/
theorem c2_length_write_read_agree (s : Shape) (v : Val) (rest : List Nat)
    (h : HasShape s v) :
    (enc v).length = blength v ∧
    bread s (enc v ++ rest) = .ok (v, rest) ∧
    (enc v ++ rest).length - blength v = rest.length := by
  refine ⟨enc_length v, bread_enc h rest, ?_⟩
  rw [List.length_append, enc_length v]
  omega

/-- Witness for C2 at the nested value `record [prim [7], opt (some (prim [9]))]`
with two trailing bytes. -/
theorem c2_length_write_read_agree_witness :
    (enc (Val.record [.prim [7], .opt (some (.prim [9]))])).length
      = blength (Val.record [.prim [7], .opt (some (.prim [9]))]) ∧
    bread (Shape.record [.prim 1, .opt (.prim 1)])
        (enc (Val.record [.prim [7], .opt (some (.prim [9]))]) ++ [3, 4])
      = .ok (Val.record [.prim [7], .opt (some (.prim [9]))], [3, 4]) ∧
    (enc (Val.record [.prim [7], .opt (some (.prim [9]))]) ++ [3, 4]).length
      - blength (Val.record [.prim [7], .opt (some (.prim [9]))])
      = [3, 4].length :=
  c2_length_write_read_agree (Shape.record [.prim 1, .opt (.prim 1)])
    (Val.record [.prim [7], .opt (some (.prim [9]))]) [3, 4]
    (HasShape.record (.cons (.prim rfl (by decide))
      (.cons (.optSome (.prim rfl (by decide))) .nil)))

/-- C3: a binary read from any strict prefix of a value's encoding - in
particular a buffer truncated to `N-1` of the required `N` bytes - fails
with the truncated-input `parse_error`, aborting the decode with no
partial object. -/
theorem c3_truncated_read_fails (s : Shape) (v : Val) (b d : List Nat)
    (hs : HasShape s v) (henc : enc v = b ++ d) (hd : d ≠ []) :
    bread s b = .error .truncatedInput :=
  bread_of_proper_pref hs henc hd

/-- Witness for C3: a two-byte primitive truncated to one byte. -/
theorem c3_truncated_read_fails_witness :
    HasShape (Shape.prim 2) (Val.prim [7, 8]) ∧
    enc (Val.prim [7, 8]) = [7] ++ [8] ∧
    ([8] : List Nat) ≠ [] ∧
    bread (Shape.prim 2) [7] = .error .truncatedInput :=
  ⟨.prim rfl (by decide), rfl, by decide,
    c3_truncated_read_fails (Shape.prim 2) (Val.prim [7, 8]) [7] [8]
      (.prim rfl (by decide)) rfl (by decide)⟩

/-- C4: the claim fails on the code: for the `int` value 5 the `base64`
attribute holds `"BQ=="`, the Base64 text of the single byte `05` (the
strlen-truncated view of line 305), not `"BQAAAA=="`, the Base64 text of
all `sizeof(int) = 4` raw bytes `05 00 00 00` which the claim - and the
reader, which copies `sizeof(T)` decoded bytes (line 317) - expect. -/
theorem c4_base64_attr_truncated :
    xmlWriteB64 "int" (i32bytes 5) = .mk "int" [("base64", "BQ==")] [] ∧
    String.mk (base64Encode (i32bytes 5)) = "BQAAAA==" ∧
    ("BQ==" : String) ≠ "BQAAAA==" :=
  ⟨rfl, rfl, by decide⟩

/-- C5: the binary encoding of the sequence of five 4-byte integers
`[1,2,3,4,5]` is exactly 28 bytes - the 8-byte unsigned count 5 followed
by the five 4-byte little-endian element encodings in order - and
decoding reproduces the elements in that order. -/
theorem c5_sequence_layout :
    enc (Val.seq [.prim (i32bytes 1), .prim (i32bytes 2), .prim (i32bytes 3),
        .prim (i32bytes 4), .prim (i32bytes 5)])
      = [5, 0, 0, 0, 0, 0, 0, 0,
         1, 0, 0, 0, 2, 0, 0, 0, 3, 0, 0, 0, 4, 0, 0, 0, 5, 0, 0, 0] ∧
    (enc (Val.seq [.prim (i32bytes 1), .prim (i32bytes 2), .prim (i32bytes 3),
        .prim (i32bytes 4), .prim (i32bytes 5)])).length = 28 ∧
    natToBytes 8 5 = [5, 0, 0, 0, 0, 0, 0, 0] ∧
    bread (.seq (.prim 4))
        [5, 0, 0, 0, 0, 0, 0, 0,
         1, 0, 0, 0, 2, 0, 0, 0, 3, 0, 0, 0, 4, 0, 0, 0, 5, 0, 0, 0]
      = .ok (Val.seq [.prim (i32bytes 1), .prim (i32bytes 2),
          .prim (i32bytes 3), .prim (i32bytes 4), .prim (i32bytes 5)], []) :=
  ⟨rfl, rfl, rfl, rfl⟩

/-- C6: the record `{a : int32 = 5, b : float64 = 10.0, c : bool = true}`
(10.0 in IEEE-754 binary64 little-endian is `00 00 00 00 00 00 24 40`,
true is the byte `01`) encodes to exactly `4 + 8 + 1 = 13` bytes, the
fields consecutive in declaration order with no padding, and decoding
those bytes reproduces the exact record. -/
theorem c6_record_layout :
    enc (Val.record [.prim [5, 0, 0, 0],
        .prim [0, 0, 0, 0, 0, 0, 36, 64], .prim [1]])
      = [5, 0, 0, 0, 0, 0, 0, 0, 0, 0, 36, 64, 1] ∧
    blength (Val.record [.prim [5, 0, 0, 0],
        .prim [0, 0, 0, 0, 0, 0, 36, 64], .prim [1]]) = 13 ∧
    bread (Shape.record [.prim 4, .prim 8, .prim 1])
        [5, 0, 0, 0, 0, 0, 0, 0, 0, 0, 36, 64, 1]
      = .ok (Val.record [.prim [5, 0, 0, 0],
          .prim [0, 0, 0, 0, 0, 0, 36, 64], .prim [1]], []) :=
  ⟨rfl, rfl, rfl⟩

/-- C7: optionals and unique_ptrs have binary length 1 when absent and
`1 + length(inner)` when present; write emits the 1-byte presence flag
then the inner bytes only when present; a 0 flag decodes to the absent
value leaving the rest of the buffer untouched (no inner read for any
trailing bytes), and a 1 flag decodes exactly one inner value. -/
theorem c7_presence_encoding (s : Shape) (v : Val) (rest : List Nat)
    (h : HasShape s v) :
    blength (Val.opt none) = 1 ∧ blength (Val.ptr none) = 1 ∧
    blength (Val.opt (some v)) = 1 + blength v ∧
    blength (Val.ptr (some v)) = 1 + blength v ∧
    enc (Val.opt none) = [0] ∧ enc (Val.ptr none) = [0] ∧
    enc (Val.opt (some v)) = 1 :: enc v ∧
    enc (Val.ptr (some v)) = 1 :: enc v ∧
    bread (Shape.opt s) (0 :: rest) = .ok (Val.opt none, rest) ∧
    bread (Shape.ptr s) (0 :: rest) = .ok (Val.ptr none, rest) ∧
    bread (Shape.opt s) (1 :: (enc v ++ rest)) = .ok (Val.opt (some v), rest) ∧
    bread (Shape.ptr s) (1 :: (enc v ++ rest)) = .ok (Val.ptr (some v), rest) := by
  refine ⟨rfl, rfl, rfl, rfl, rfl, rfl, rfl, rfl, rfl, rfl, ?_, ?_⟩
  · show (bread s (enc v ++ rest)).map (fun p => (Val.opt (some p.1), p.2)) = _
    rw [bread_enc h rest, emap_ok]
  · show (bread s (enc v ++ rest)).map (fun p => (Val.ptr (some p.1), p.2)) = _
    rw [bread_enc h rest, emap_ok]

/-- Witness for C7 at the one-byte primitive `[7]` with a garbage tail. -/
theorem c7_presence_encoding_witness :
    blength (Val.opt none) = 1 ∧ blength (Val.ptr none) = 1 ∧
    blength (Val.opt (some (Val.prim [7]))) = 1 + blength (Val.prim [7]) ∧
    blength (Val.ptr (some (Val.prim [7]))) = 1 + blength (Val.prim [7]) ∧
    enc (Val.opt none) = [0] ∧ enc (Val.ptr none) = [0] ∧
    enc (Val.opt (some (Val.prim [7]))) = 1 :: enc (Val.prim [7]) ∧
    enc (Val.ptr (some (Val.prim [7]))) = 1 :: enc (Val.prim [7]) ∧
    bread (Shape.opt (.prim 1)) (0 :: [9]) = .ok (Val.opt none, [9]) ∧
    bread (Shape.ptr (.prim 1)) (0 :: [9]) = .ok (Val.ptr none, [9]) ∧
    bread (Shape.opt (.prim 1)) (1 :: (enc (Val.prim [7]) ++ [9]))
      = .ok (Val.opt (some (Val.prim [7])), [9]) ∧
    bread (Shape.ptr (.prim 1)) (1 :: (enc (Val.prim [7]) ++ [9]))
      = .ok (Val.ptr (some (Val.prim [7])), [9]) :=
  c7_presence_encoding (Shape.prim 1) (Val.prim [7]) [9]
    (.prim rfl (by decide))

/-- C8: decoding a `std::optional` from an element whose `has_value`
attribute reads true but which has no child element fails with the
missing-child-element `parse_error`, for every inner serializer. -/
theorem c8_optional_missing_child {α : Type}
    (inner : XElem → Except XErr α) (tag : String)
    (attrs : List (String × String))
    (hattr : findAttr attrs "has_value" = some "true") :
    xmlReadOpt inner (.mk tag attrs []) = .error .missingChildElement := by
  simp only [xmlReadOpt, XElem.attrs, XElem.children, hattr]
  rfl

/-- Witness for C8 at a concrete document. -/
theorem c8_optional_missing_child_witness :
    findAttr [("has_value", "true")] "has_value" = some "true" ∧
    xmlReadOpt (fun _ => (.ok 0 : Except XErr Nat))
        (.mk "optional" [("has_value", "true")] [])
      = .error .missingChildElement :=
  ⟨rfl, c8_optional_missing_child (fun _ => (.ok 0 : Except XErr Nat))
    "optional" [("has_value", "true")] rfl⟩

/-- C9: the text-mode primitive reader errors exactly when the `value`
attribute is absent (with the missing-attribute `parse_error`); when the
attribute is present the read always succeeds, even when the text fails
numeric conversion - the conversion status is ignored and an unvalidated
result is produced. Stated for the unsigned and signed integral branches,
which share the structure of all three arithmetic branches. -/
theorem c9_text_read_error_iff_attr_absent (el : XElem) :
    (xmlReadU64Text el = .error .missingAttribute
      ↔ findAttr el.attrs "value" = none) ∧
    ((xmlReadU64Text el).isOk = (findAttr el.attrs "value").isSome) ∧
    (xmlReadI64Text el = .error .missingAttribute
      ↔ findAttr el.attrs "value" = none) ∧
    ((xmlReadI64Text el).isOk = (findAttr el.attrs "value").isSome) := by
  cases h : findAttr el.attrs "value" <;>
    simp [xmlReadU64Text, xmlReadI64Text, h, Except.isOk, Except.toBool]

/-- C10: decoding never requires the input to be fully consumed: a binary
read succeeds on any byte sequence whose prefix is a valid encoding,
returning the decoded value and leaving the trailing bytes untouched, and
the XML child walk reads one child per field and silently ignores any
surplus sibling children. -/
theorem c10_trailing_ignored {α : Type} (s : Shape) (v : Val)
    (rest : List Nat) (h : HasShape s v)
    (rs : List (XElem → Except XErr α)) (cs extra : List XElem) (vs : List α)
    (hx : xmlReadFieldsWith rs cs = .ok vs) :
    bread s (enc v ++ rest) = .ok (v, rest) ∧
    xmlReadFieldsWith rs (cs ++ extra) = .ok vs :=
  ⟨bread_enc h rest, xmlReadFieldsWith_append hx extra⟩

/-- Witness for C10: a primitive with two trailing bytes, and a one-field
child walk with one surplus child. -/
theorem c10_trailing_ignored_witness :
    HasShape (Shape.prim 1) (Val.prim [7]) ∧
    xmlReadFieldsWith [xmlReadU64Text] [.mk "int" [("value", "3")] []]
      = .ok [3] ∧
    bread (Shape.prim 1) (enc (Val.prim [7]) ++ [8, 9])
      = .ok (Val.prim [7], [8, 9]) ∧
    xmlReadFieldsWith [xmlReadU64Text]
        ([.mk "int" [("value", "3")] []] ++ [.mk "int" [] []])
      = .ok [3] :=
  ⟨.prim rfl (by decide), rfl,
    c10_trailing_ignored (Shape.prim 1) (Val.prim [7]) [8, 9]
      (.prim rfl (by decide)) [xmlReadU64Text]
      [.mk "int" [("value", "3")] []] [.mk "int" [] []] [3] rfl⟩

end Serialization
